import Mathlib

/-!
Verification development for the coalition p2p overlay (a Kademlia-style
find-node-only DHT written in Go).

The Go sources are shallowly embedded: byte slices become `List Nat`
(each element a byte value), `int`/`int64` become `Int` or `Nat` with
explicit wrap-around where Go truncates, wall-clock reads
(`time.Now().Unix()`) become an explicit `now : Int` parameter, and the
network, cryptography and JSON codecs reached by `SendMessage` /
`FindClosestNodes` are abstracted as oracle records, while all routing
logic is translated statement by statement from the source.
-/

/-- Byte strings (`[]byte` in Go); each element is a byte value `< 256`,
although none of the translated routines depends on that bound. -/
abbrev Bytes := List Nat

/-- Size of a peer key in bytes (`PeerKeySize = sha1.Size` in constants.go). -/
def PeerKeySize : Nat := 20

/-- Size of a peer payload signature in bytes
(`PeerSignatureSize = ed25519.PublicKeySize + ed25519.SignatureSize`). -/
def PeerSignatureSize : Nat := 96

/-- Model of Go `XORBytes` (helpers.go): byte-wise xor, output truncated to
the shorter input. -/
def XORBytes (sliceA sliceB : Bytes) : Bytes :=
  List.zipWith Nat.xor sliceA sliceB

/-- Model of Go `bytes.Compare`: lexicographic byte comparison returning
-1, 0 or 1, a strict prefix comparing as smaller. -/
def bytesCompare : Bytes → Bytes → Int
  | [], [] => 0
  | [], _ :: _ => -1
  | _ :: _, [] => 1
  | a :: as, b :: bs => if a < b then -1 else if b < a then 1 else bytesCompare as bs

/-- Value of a byte string read big-endian, as by Go `big.Int.SetBytes`. -/
def bytesToNat (bs : Bytes) : Nat :=
  bs.foldl (fun acc b => acc * 256 + b) 0

/-- A network peer (route_table.go `Peer`): key, IPv4 address, listening
port, and last-seen unix timestamp. -/
structure Peer where
  key : Bytes
  ipAddress : String
  port : Int
  lastSeen : Int
deriving DecidableEq, Repr

/-- Junk peer used where Go would dereference an index that is provably in
range (or panic); every use is guarded by reasoning that makes it
unreachable on the executions the theorems speak about. -/
def dummyPeer : Peer := ⟨[], "", 0, 0⟩

/-- The merge loop at the end of Go `MergeSortPeers` (helpers.go),
recursion bounded by an explicit step budget so that the definition is
structural and computable by the kernel: each loop iteration consumes one
element of one list, so `|A| + |B|` steps always suffice
(`mergePeersGo_eq_merge` discharges the budget).  The loop takes the head
of `sortedA` while `sortFunc` is `>= 0`, else the head of `sortedB`,
appending the leftovers of whichever list survives. -/
def mergePeersGo (sortFunc : Peer → Peer → Int) :
    Nat → List Peer → List Peer → List Peer
  | 0, _, _ => []
  | _ + 1, [], ys => ys
  | _ + 1, x :: xs, [] => x :: xs
  | fuel + 1, x :: xs, y :: ys =>
    if 0 ≤ sortFunc x y then x :: mergePeersGo sortFunc fuel xs (y :: ys)
    else y :: mergePeersGo sortFunc fuel (x :: xs) ys

/-- The merge loop with its sufficient step budget. -/
def mergePeers (sortFunc : Peer → Peer → Int) (xs ys : List Peer) : List Peer :=
  mergePeersGo sortFunc (xs.length + ys.length + 1) xs ys

/-- Recursion body of Go `MergeSortPeers` (helpers.go), bounded by an
explicit depth budget so that the definition is structural and computable
by the kernel (`mergeSortPeersGo_eq` discharges the budget).  The three
early returns are the source's atomic sub-array cases, and
`int(math.Ceil(float64(len)/2))` is `(len+1)/2` for every list length a Go
slice can have. -/
def mergeSortPeersGo (sortFunc : Peer → Peer → Int) :
    Nat → List Peer → List Peer → List Peer
  | 0, _, _ => []
  | fuel + 1, bucketA, bucketB =>
    if bucketA.length = 0 ∧ bucketB.length = 0 then []
    else if bucketA.length = 1 ∧ bucketB.length = 0 then bucketA
    else if bucketB.length = 1 ∧ bucketA.length = 0 then bucketB
    else
      let midA := (bucketA.length + 1) / 2
      let sortedA := mergeSortPeersGo sortFunc fuel (bucketA.take midA) (bucketA.drop midA)
      let midB := (bucketB.length + 1) / 2
      let sortedB := mergeSortPeersGo sortFunc fuel (bucketB.take midB) (bucketB.drop midB)
      mergePeers sortFunc sortedA sortedB

/-- Model of Go `MergeSortPeers` (helpers.go): sorts the concatenation of
its two arguments.  The recursion depth budget `2(|A| + |B|) + 2`
strictly dominates the well-founded measure of the source's recursion, so
the budget is never exhausted. -/
def MergeSortPeers (sortFunc : Peer → Peer → Int) (bucketA bucketB : List Peer) :
    List Peer :=
  mergeSortPeersGo sortFunc (2 * (bucketA.length + bucketB.length) + 2) bucketA bucketB

/-- Comparator of Go `SortPeersByClosest` (helpers.go):
`bytes.Compare(distanceB, distanceA)` on the byte-wise XOR distances to the
search key. -/
def closestSortFunc (searchKey : Bytes) (peerA peerB : Peer) : Int :=
  bytesCompare (XORBytes peerB.key searchKey) (XORBytes peerA.key searchKey)

/-- Model of Go `SortPeersByClosest` (helpers.go): merge sort from closest
to farthest from the search key. -/
def SortPeersByClosest (peers : List Peer) (searchKey : Bytes) : List Peer :=
  MergeSortPeers (closestSortFunc searchKey) peers []

/-- Comparator of Go `SortPeersByLastSeen` (route_table.go):
`int(peerB.lastSeen - peerA.lastSeen)`, most recent first. -/
def lastSeenSortFunc (peerA peerB : Peer) : Int :=
  peerB.lastSeen - peerA.lastSeen

/-- The route table (route_table.go `RouteTable`).  Go's
`kbucket map[string][][]byte` is modelled as an association list: the hex
strings Go uses as map keys are in bijection with the `Nat` values they
encode (`2^i` for bucket `i`, `0` for the zero-distance fallback), and Go's
unspecified map iteration order is fixed to entry-creation order, one
admissible deterministic order. -/
structure RouteTable where
  locusKey : Bytes
  maxPeers : Int
  latencyPeriod : Int
  peers : List Peer
  kbucket : List (Nat × List Bytes)
deriving DecidableEq, Repr

/-- Read of `table.kbucket[b]` when the code first checks existence:
`none` when the map has no entry for `b`. -/
def lookupBucket (kb : List (Nat × List Bytes)) (b : Nat) : Option (List Bytes) :=
  (kb.find? (fun e => e.1 == b)).map (·.2)

/-- Read of `table.kbucket[b]` as a Go map read: a missing entry yields the
zero value `[]`. -/
def bucketRead (kb : List (Nat × List Bytes)) (b : Nat) : List Bytes :=
  (lookupBucket kb b).getD []

/-- Write `table.kbucket[b] = v` as a Go map assignment: replace the entry
if present, create it otherwise. -/
def bucketWrite (kb : List (Nat × List Bytes)) (b : Nat) (v : List Bytes) :
    List (Nat × List Bytes) :=
  if (kb.find? (fun e => e.1 == b)).isSome then
    kb.map (fun e => if e.1 == b then (b, v) else e)
  else
    kb ++ [(b, v)]

/-- The scan of `calculateKBucketKey` (route_table.go): walk `i` from
`noBits - 1` down to `0` and return `2^i` for the first `i` with
`distance AND 2^i == 2^i`; fall back to the encoding of the zero byte.
The returned `Nat` stands for the hex string Go derives from it
(`hex.EncodeToString` is injective on these values). -/
def hiBitKey (distance : Nat) : Nat → Nat
  | 0 => 0
  | i + 1 => if Nat.land distance (2 ^ i) = 2 ^ i then 2 ^ i else hiBitKey distance i

/-- Bucket index of `key` relative to `locusKey`: the xor of the big-endian
values (`big.Int.Xor` of `SetBytes`), scanned by `hiBitKey` over
`len(locusKey) * 8` bit positions. -/
def kbucketIndex (locusKey key : Bytes) : Nat :=
  hiBitKey (Nat.xor (bytesToNat locusKey) (bytesToNat key)) (locusKey.length * 8)

/-- Model of Go `RouteTable.calculateKBucketKey`: errors on a key length
mismatch, otherwise returns the bucket index. -/
def RouteTable.calculateKBucketKey (table : RouteTable) (key : Bytes) :
    Except String Nat :=
  if key.length ≠ table.locusKey.length then .error "key length miss-match"
  else .ok (kbucketIndex table.locusKey key)

/-- Model of Go `RouteTable.SortPeersByLastSeen`. -/
def RouteTable.SortPeersByLastSeen (table : RouteTable) : List Peer :=
  MergeSortPeers lastSeenSortFunc table.peers []

/-- Model of Go `RouteTable.SortPeersByProximity` (route_table.go): length
check, then `SortPeersByClosest`. -/
def RouteTable.SortPeersByProximity (table : RouteTable) (key : Bytes) :
    Except String (List Peer) :=
  if key.length ≠ table.locusKey.length then .error "key length miss-match"
  else .ok (SortPeersByClosest table.peers key)

/-- Splice an index out of a list, as the Go code's
`append(l[:i], l[i+1:]...)` pattern. -/
def spliceAt (l : List α) (i : Nat) : List α :=
  l.take i ++ l.drop (i + 1)

/-- Model of Go `RouteTable.Remove` (route_table.go): locate the peer by
key, recompute its bucket, check the bucket entry, and splice the key out
of the bucket and the peer out of the peers list.  All error returns
precede any mutation.  `getD … dummyPeer` reads an index that `findIdx?`
has just produced, so the default is never used. -/
def RouteTable.Remove (table : RouteTable) (key : Bytes) :
    Option String × RouteTable :=
  match table.peers.findIdx? (fun p => p.key == key) with
  | none => (some "peer not found in peers list", table)
  | some peerIndex =>
    let peer := table.peers.getD peerIndex dummyPeer
    match table.calculateKBucketKey peer.key with
    | .error e => (some e, table)
    | .ok bucketKey =>
      match lookupBucket table.kbucket bucketKey with
      | none => (some "kbucket entry does not exist for peer", table)
      | some entry =>
        match entry.findIdx? (fun pk => pk == peer.key) with
        | none => (some "peer key not found in kbucket", table)
        | some peerKeyIndex =>
          (none,
            { table with
              kbucket := bucketWrite table.kbucket bucketKey (spliceAt entry peerKeyIndex)
              peers := spliceAt table.peers peerIndex })

/-- The append of a new peer shared by the three successful insertion exits
of Go `RouteTable.Insert`: push onto `peers` and onto its bucket entry. -/
def appendPeer (table : RouteTable) (peer : Peer) (bucketKey : Nat) : RouteTable :=
  { table with
    peers := table.peers ++ [peer]
    kbucket := bucketWrite table.kbucket bucketKey
      (bucketRead table.kbucket bucketKey ++ [peer.key]) }

/-- The final replacement stage of Go `RouteTable.Insert`: sort by last
seen, take the least recently seen peer, and replace it when it is older
than the latency period.  Go indexes `peers[len(peers)-1]` (a panic on an
empty table, reachable only with `maxPeers < 1`, which `NewRouteTable`
rejects); the model reads `getLastD … dummyPeer` there. -/
def lastSeenReplace (table : RouteTable) (peer : Peer) (bucketKey : Nat) (now : Int) :
    (Bool × Option String) × RouteTable :=
  let sorted := table.SortPeersByLastSeen
  let leastSeenPeer := sorted.getLastD dummyPeer
  if now - leastSeenPeer.lastSeen > table.latencyPeriod then
    match table.Remove leastSeenPeer.key with
    | (some e, t') => ((false, some e), t')
    | (none, t') => ((true, none), appendPeer t' peer bucketKey)
  else ((false, none), table)

/-- The part of Go `RouteTable.Insert` that runs once the new peer's
bucket key is known and its bucket entry exists (route_table.go lines
216-262): append if the table is not full; otherwise prune a bloated
bucket's tail when the new peer's bucket is empty; otherwise fall through
to the last-seen replacement. -/
def insertNewPeer (table1 : RouteTable) (peer : Peer) (bucketKey : Nat) (now : Int) :
    (Bool × Option String) × RouteTable :=
  if (table1.peers.length : Int) < table1.maxPeers then
    ((true, none), appendPeer table1 peer bucketKey)
  else if (bucketRead table1.kbucket bucketKey).length = 0 then
    match table1.kbucket.find? (fun e => decide (1 < e.2.length)) with
    | some entry =>
      let entryPeerKey := entry.2.getLastD []
      match table1.Remove entryPeerKey with
      | (some e, t') => ((false, some e), t')
      | (none, t') => ((true, none), appendPeer t' peer bucketKey)
    | none => lastSeenReplace table1 peer bucketKey now
  else lastSeenReplace table1 peer bucketKey now

/-- Model of Go `RouteTable.Insert` (route_table.go).  `now` stands for
`time.Now().Unix()`; the source reads the clock more than once within a
call and the model identifies those reads.  Returns the
`(inserted, error)` pair together with the table after the call. -/
def RouteTable.Insert (table : RouteTable) (key : Bytes) (ipAddress : String)
    (port : Int) (now : Int) : (Bool × Option String) × RouteTable :=
  if key == table.locusKey then ((false, none), table)
  else
    match table.peers.findIdx? (fun p => p.key == key) with
    | some peerIndex =>
      let old := table.peers.getD peerIndex dummyPeer
      ((true, none),
        { table with
          peers := table.peers.set peerIndex
            { old with ipAddress := ipAddress, port := port, lastSeen := now } })
    | none =>
      let peer : Peer := ⟨key, ipAddress, port, now⟩
      match table.calculateKBucketKey peer.key with
      | .error e => ((false, some e), table)
      | .ok bucketKey =>
        let table1 :=
          if (lookupBucket table.kbucket bucketKey).isNone then
            { table with kbucket := table.kbucket ++ [(bucketKey, [])] }
          else table
        insertNewPeer table1 peer bucketKey now

/-- Model of Go `RouteTable.Get`. -/
def RouteTable.Get (table : RouteTable) (key : Bytes) : Option Peer :=
  table.peers.find? (fun p => p.key == key)

/-- Model of Go `NewRouteTable`: rejects `maxPeers < 1` and otherwise
starts from an empty peer list and an empty bucket map. -/
def NewRouteTable (locusKey : Bytes) (maxPeers latencyPeriod : Int) :
    Except String RouteTable :=
  if maxPeers < 1 then .error "max peers must be >= 1"
  else .ok ⟨locusKey, maxPeers, latencyPeriod, [], []⟩

/-- Membership test for the character class `[0-9A-f]` of the Go regex in
`ParseNodeAddress` (helpers.go).  The ASCII range `A..f` also admits
`G..Z`, brackets and backquote; those pass the regex but fail
`hex.DecodeString`, exactly as in Go. -/
def isHexClassChar (c : Char) : Bool :=
  (decide ('0' ≤ c) && decide (c ≤ '9')) || (decide ('A' ≤ c) && decide (c ≤ 'f'))

/-- The `\d` class of the regex. -/
def isDigitChar (c : Char) : Bool :=
  decide ('0' ≤ c) && decide (c ≤ '9')

/-- Value of a strict hex digit as accepted by Go `hex.DecodeString`. -/
def hexDigitVal (c : Char) : Option Nat :=
  if '0' ≤ c ∧ c ≤ '9' then some (c.toNat - 48)
  else if 'a' ≤ c ∧ c ≤ 'f' then some (c.toNat - 87)
  else if 'A' ≤ c ∧ c ≤ 'F' then some (c.toNat - 55)
  else none

/-- Model of Go `hex.DecodeString`: fails on odd length or any non-hex
character. -/
def hexDecode : List Char → Option Bytes
  | [] => some []
  | [_] => none
  | c1 :: c2 :: rest =>
    match hexDigitVal c1, hexDigitVal c2, hexDecode rest with
    | some h, some l, some bs => some ((16 * h + l) :: bs)
    | _, _, _ => none

/-- The `(.+)\:(\d+)$` tail of the regex: because `.+` is greedy, the match
splits at the last colon that is followed by a nonempty all-digit suffix;
`.` does not match a newline. -/
def splitHostPort (l : List Char) : Option (List Char × List Char) :=
  let r := l.reverse
  let digits := r.takeWhile isDigitChar
  match r.drop digits.length with
  | ':' :: hostRev =>
    if digits.isEmpty || hostRev.isEmpty then none
    else if (hostRev.any (fun c => c == '\n')) then none
    else some (hostRev.reverse, digits.reverse)
  | _ => none

/-- One dotted-decimal field as accepted by Go `net.ParseIP` for IPv4
literals: nonempty, digits only, no redundant leading zero, value at most
255. -/
def parseIPv4Field (s : List Char) : Option Nat :=
  if s.isEmpty then none
  else if !(s.all isDigitChar) then none
  else if 1 < s.length ∧ s.head? = some '0' then none
  else
    let v := s.foldl (fun a c => a * 10 + (c.toNat - 48)) 0
    if v ≤ 255 then some v else none

/-- Model of Go `net.ParseIP(..).To4()` restricted to dotted-quad
literals.  IPv6 literal forms (which Go would parse, and whose
IPv4-mapped variants survive `To4`) are modelled as unparseable; no claim
in this development depends on an IPv6-form host. -/
def goParseIP4 (host : List Char) : Option (List Nat) :=
  if host.any (fun c => c == ':') then none
  else
    match host.splitOn '.' with
    | [a, b, c, d] =>
      match parseIPv4Field a, parseIPv4Field b, parseIPv4Field c, parseIPv4Field d with
      | some va, some vb, some vc, some vd => some [va, vb, vc, vd]
      | _, _, _, _ => none
    | _ => none

/-- Model of Go `strconv.Atoi` on an all-digit string: fails only when the
value overflows a 64-bit int; there is no `[0, 65535]` port range check in
the source. -/
def goAtoi (digits : List Char) : Option Int :=
  let v : Nat := digits.foldl (fun a c => a * 10 + (c.toNat - 48)) 0
  if v < 2 ^ 63 then some (v : Int) else none

/-- Model of Go `ParseNodeAddress` (helpers.go): match the regex
`node://([0-9A-f]+)@(.+):(\d+)`, hex-decode the key, require a 20-byte
key, parse the host as IPv4 and the port with `Atoi`.  For a dotted quad
accepted by the parser, `To4().String()` returns the input spelling, so
the host is returned unchanged. -/
def ParseNodeAddress (address : String) : Except String (Bytes × String × Int) :=
  let cs := address.data
  if cs.take 7 ≠ "node://".data then .error "invalid node address"
  else
    let rest := cs.drop 7
    let hexRun := rest.takeWhile isHexClassChar
    if hexRun.isEmpty then .error "invalid node address"
    else
      match rest.drop hexRun.length with
      | '@' :: hostPort =>
        match splitHostPort hostPort with
        | none => .error "invalid node address"
        | some (host, digits) =>
          match hexDecode hexRun with
          | none => .error "invalid hex in node address"
          | some key =>
            if key.length ≠ PeerKeySize then .error "invalid peer key"
            else
              match goParseIP4 host with
              | none => .error "invalid ip adddress"
              | some _ =>
                match goAtoi digits with
                | none => .error "port value out of range"
                | some port => .ok (key, String.mk host, port)
      | _ => .error "invalid node address"

/-- Wrap an unsigned 64-bit word into a signed `int64`, as Go's conversion
`int64(uint64)` does. -/
def int64OfLowWord (u : Nat) : Int :=
  if u % 2 ^ 64 < 2 ^ 63 then ((u % 2 ^ 64 : Nat) : Int)
  else ((u % 2 ^ 64 : Nat) : Int) - 2 ^ 64

/-- Model of Go `big.Int.Int64` as implemented: the low 64 bits of the
magnitude reinterpreted as a signed word, negated for a negative value.
(The Go documentation calls the out-of-range result undefined; this is
what the implementation computes.) -/
def bigIntInt64 (d : Int) : Int :=
  if d < 0 then -(int64OfLowWord d.natAbs) else int64OfLowWord d.natAbs

/-- Comparator of Go `PeerStore.SortPeersByProximity` (peer_store.go):
`int(new(big.Int).Sub(distanceB, distanceA).Int64())` over the big-integer
XOR distances to the search key. -/
def proximitySortFunc (searchKey : Bytes) (peerA peerB : Peer) : Int :=
  bigIntInt64 ((Nat.xor (bytesToNat peerB.key) (bytesToNat searchKey) : Int)
    - (Nat.xor (bytesToNat peerA.key) (bytesToNat searchKey) : Int))

/-- Model of Go `PeerStore.SortPeersByProximity` (peer_store.go), whose
private `mergeSortPeers` is textually the `MergeSortPeers` of helpers.go;
only the locus key and peers list of the store are relevant. -/
def storeSortPeersByProximity (locusKey : Bytes) (peers : List Peer) (key : Bytes) :
    Except String (List Peer) :=
  if key.length ≠ locusKey.length then .error "key length miss-match"
  else .ok (MergeSortPeers (proximitySortFunc key) peers [])

/-- An RPC response body (`RPCResponse` in rpc.go): on failure `data`
carries the reason string.  Go's `data interface{}` is modelled as the
string the failure path casts it to. -/
structure RPCResponse where
  success : Bool
  data : String
deriving DecidableEq, Repr

/-- Outcome of a `SendMessage` call: a Go `panic`, an error return, or a
successful payload. -/
inductive SendResult where
  | panicked (msg : String)
  | failed (msg : String)
  | ok (data : String)
deriving DecidableEq, Repr

/-- Oracle for the network, cryptography and JSON effects of one
`SendMessage` exchange (host.go): whether the dial and the frame write
succeed, the host's listener port, the bytes read back, the peer key
recovered from the response signature (`none` for any signature failure),
and the decoded RPC response (`none` for a JSON decode failure).  JSON
marshalling of the request and host signing, whose error branches are
unreachable, are modelled as succeeding. -/
structure Wire where
  dialOk : Bool
  hostPort : Option Int
  writeOk : Bool
  readResult : Option Bytes
  recoverKey : Option Bytes
  response : Option RPCResponse

/-- Model of Go `Host.SendMessage` (host.go): parse the address —
panicking, as the source does, when parsing fails — then dial, write the
signed frame, read and verify the response, insert the remote peer into
the routing table, and only then decode the response body. -/
def SendMessage (w : Wire) (table : RouteTable) (address : String) (now : Int) :
    SendResult × RouteTable :=
  match ParseNodeAddress address with
  | .error e => (.panicked e, table)
  | .ok (remotePeerKey, remoteIP4Address, remotePort) =>
    if !w.dialOk then (.failed "dial error", table)
    else
      match w.hostPort with
      | none => (.failed "unable to parse host port", table)
      | some _ =>
        if !w.writeOk then (.failed "write error", table)
        else
          match w.readResult with
          | none => (.failed "read error", table)
          | some responsePayload =>
            if responsePayload.length ≤ PeerSignatureSize then
              (.failed "incomplete response body", table)
            else
              match w.recoverKey with
              | none => (.failed "invalid peer signature", table)
              | some peerKey =>
                if peerKey ≠ remotePeerKey then
                  (.failed "peer key in address does not match peer key in response", table)
                else
                  match table.Insert remotePeerKey remoteIP4Address remotePort now with
                  | ((_, some e), t') => (.failed e, t')
                  | ((_, none), t') =>
                    match w.response with
                    | none => (.failed "json unmarshal error", t')
                    | some response =>
                      if !response.success then (.failed response.data, t')
                      else (.ok response.data, t')

/-- An outbound exchange that fails strictly before the routing-table
insertion of `SendMessage`: the dial, the frame write or the frame read
fails, the response is too short to carry a peer signature, the signature
fails to verify, or the recovered peer key differs from the key named in
the address. -/
def preVerifyFailure (w : Wire) (expectedKey : Bytes) : Prop :=
  w.dialOk = false ∨ w.hostPort = none ∨ w.writeOk = false ∨ w.readResult = none
    ∨ (∃ body, w.readResult = some body ∧ body.length ≤ PeerSignatureSize)
    ∨ w.recoverKey = none
    ∨ (∃ k, w.recoverKey = some k ∧ k ≠ expectedKey)

/-- Parameters and effect oracles of one `FindClosestNodes` run (dht.go).
`netFindNode` abstracts `lookupNode.Address()` plus `host.FindNode` plus
the per-address `NewPeerFromAddress` of the response (`none` is an RPC or
address failure; addresses that fail to parse simply never occur in the
returned list).  `alive` abstracts `peer.Address()` plus `host.Ping` in
`filterDeadNodes`. -/
structure LookupConfig where
  hostKey : Bytes
  searchKey : Bytes
  concurrentRequests : Nat
  maxPeers : Nat
  netFindNode : Bytes → Option (List Peer)
  alive : Peer → Bool

/-- The mutable state of the lookup loop: `prev` is `prevLookUpRes` (the
accumulated "seen" set), `curr` is `currentLookUpRes`, `inactive` is
`inactiveNodes`. -/
structure LookupState where
  prev : List Peer
  curr : List Peer
  inactive : List Peer
deriving Repr

/-- Model of `host.filterDeadNodes` (rpc_methods.go): partition by the
liveness oracle.  The goroutines append in completion order; the model
fixes the admissible schedule in which they complete in launch order. -/
def filterDeadNodes (cfg : LookupConfig) (peers : List Peer) :
    List Peer × List Peer :=
  (peers.filter cfg.alive, peers.filter (fun p => !cfg.alive p))

/-- The re-sorted accumulated set at the top of a loop iteration:
`prevLookUpRes = SortPeersByClosest(append(prevLookUpRes, currentLookUpRes...))`. -/
def sortedSeen (cfg : LookupConfig) (st : LookupState) : List Peer :=
  SortPeersByClosest (st.prev ++ st.curr) cfg.searchKey

/-- The iteration's `maxDistance`: XOR distance of the farthest peer of
the re-sorted accumulated set.  `getLastD … dummyPeer` models
`prevLookUpRes[len(prevLookUpRes)-1]`, which Go evaluates only with a
nonempty accumulated set. -/
def frontierDistance (cfg : LookupConfig) (st : LookupState) : Bytes :=
  XORBytes ((sortedSeen cfg st).getLastD dummyPeer).key cfg.searchKey

/-- Processing of one response address inside the probe goroutine: skip
peers already seen, already inactive, or already accepted in this batch;
append a peer farther than `maxDistance`, or equal to the host itself, to
the seen set; accept the rest into `newRes`. -/
def processResponsePeer (cfg : LookupConfig) (maxDistance : Bytes)
    (inactive : List Peer) (acc : List Peer × List Peer) (peer : Peer) :
    List Peer × List Peer :=
  let (prev, newRes) := acc
  if prev.any (fun q => q.key == peer.key) then acc
  else if inactive.any (fun q => q.key == peer.key) then acc
  else if newRes.any (fun q => q.key == peer.key) then acc
  else if 0 < bytesCompare (XORBytes peer.key cfg.searchKey) maxDistance
      ∨ peer.key = cfg.hostKey then
    (prev ++ [peer], newRes)
  else (prev, newRes ++ [peer])

/-- One probe goroutine: an address or RPC failure contributes nothing;
otherwise every response peer is processed under the mutex. -/
def processLookupNode (cfg : LookupConfig) (maxDistance : Bytes)
    (inactive : List Peer) (acc : List Peer × List Peer) (node : Peer) :
    List Peer × List Peer :=
  match cfg.netFindNode node.key with
  | none => acc
  | some responsePeers =>
    responsePeers.foldl (processResponsePeer cfg maxDistance inactive) acc

/-- One iteration of the lookup loop of `FindClosestNodes` (dht.go):
re-sort the seen set, fix the frontier distance, probe the first
`concurrentRequests` current peers (goroutine completions modelled in
launch order), then ping the accepted batch and keep the live ones as the
next round's current set.  Returns the new state and the batch `newRes`
(empty meaning the loop breaks). -/
def lookupStep (cfg : LookupConfig) (st : LookupState) :
    LookupState × List Peer :=
  let prev1 := sortedSeen cfg st
  let maxDistance := frontierDistance cfg st
  let (prev2, newRes) := (st.curr.take cfg.concurrentRequests).foldl
    (processLookupNode cfg maxDistance st.inactive) (prev1, [])
  if newRes.isEmpty then ({ prev := prev2, curr := [], inactive := st.inactive }, [])
  else
    let (activeNodes, deadNodes) := filterDeadNodes cfg newRes
    ({ prev := prev2
       curr := SortPeersByClosest activeNodes cfg.searchKey
       inactive := st.inactive ++ deadNodes }, newRes)

/-- The lookup loop, fuelled: `fuel` bounds the number of iterations (the
Go loop runs until a batch is empty; exhausted fuel returns the
accumulated set as the loop would at a break). -/
def lookupLoop (cfg : LookupConfig) : Nat → LookupState → List Peer
  | 0, st => st.prev
  | fuel + 1, st =>
    let (st', newRes) := lookupStep cfg st
    if newRes.isEmpty then st'.prev else lookupLoop cfg fuel st'

/-- The return of `FindClosestNodes`: sort the accumulated set from
closest to farthest and truncate to at most `maxPeers`. -/
def finalizeLookup (cfg : LookupConfig) (prev : List Peer) : List Peer :=
  let sorted := SortPeersByClosest prev cfg.searchKey
  if cfg.maxPeers ≤ sorted.length then sorted.take cfg.maxPeers else sorted

/-- The state on entry to the loop: live routing-table peers sorted by
closeness, an empty seen set, and the dead seeds as `inactiveNodes`. -/
def initLookupState (cfg : LookupConfig) (tablePeers : List Peer) : LookupState :=
  let (activeNodes, inactiveNodes) := filterDeadNodes cfg tablePeers
  { prev := [], curr := SortPeersByClosest activeNodes cfg.searchKey
    inactive := inactiveNodes }

/-- Model of Go `Host.FindClosestNodes` (dht.go): seed from the routing
table snapshot, return empty when no seed is live, otherwise run the loop
and finalize. -/
def FindClosestNodes (cfg : LookupConfig) (tablePeers : List Peer) (fuel : Nat) :
    List Peer :=
  let st := initLookupState cfg tablePeers
  if st.curr.isEmpty then []
  else finalizeLookup cfg (lookupLoop cfg fuel st)

/-- The boolean "take from the left list" relation the merge loop of
`MergeSortPeers` realises for a comparator: `sortFunc(a, b) >= 0`. -/
def leOf (f : Peer → Peer → Int) (a b : Peer) : Bool :=
  decide (0 ≤ f a b)

/-- The peer `p` is at most as far from `searchKey` as `q`, in the order
the proximity merge sort realises. -/
def closerOrTied (searchKey : Bytes) (p q : Peer) : Prop :=
  0 ≤ closestSortFunc searchKey p q

/-- What a bucket entry must hold for the side index to agree with the
peers list: the keys of the peers of that bucket, in peers-list order. -/
def bucketSpec (t : RouteTable) (b : Nat) : List Bytes :=
  (t.peers.filter (fun p => kbucketIndex t.locusKey p.key == b)).map Peer.key

/-- Structural well-formedness of a route table: stored keys are distinct
and locus-key sized, every side-index entry holds exactly the keys of its
bucket's peers, and a bucket with no entry has no peers. -/
structure TableInv (t : RouteTable) : Prop where
  nodupKeys : (t.peers.map Peer.key).Nodup
  lenKeys : ∀ p ∈ t.peers, p.key.length = t.locusKey.length
  entries : ∀ e ∈ t.kbucket, e.2 = bucketSpec t e.1
  missing : ∀ b : Nat, lookupBucket t.kbucket b = none → bucketSpec t b = []

/-- The table a successful `Remove key` produces: the first peer with that
key spliced out of the peers list, and the key spliced out of its bucket
entry. -/
def removedTable (t : RouteTable) (key : Bytes) : RouteTable :=
  { t with
    peers := t.peers.eraseP (fun p => p.key == key)
    kbucket := bucketWrite t.kbucket (kbucketIndex t.locusKey key)
      ((bucketRead t.kbucket (kbucketIndex t.locusKey key)).eraseP (fun pk => pk == key)) }

/-- Run a sequence of `Insert` calls, each argument tuple being
`(key, ipAddress, port, now)`. -/
def applyInserts (t : RouteTable) : List (Bytes × String × Int × Int) → RouteTable
  | [] => t
  | (key, ip, port, now) :: rest => applyInserts (t.Insert key ip port now).2 rest

/-- Nineteen zero bytes, the shared prefix of the concrete test keys. -/
def zeros19 : Bytes := List.replicate 19 0

/-- The all-zero 20-byte key, used as a locus and as a search target. -/
def locusZero : Bytes := List.replicate 20 0

/-- Concrete 20-byte keys differing in the last byte. -/
def keyLast (b : Nat) : Bytes := zeros19 ++ [b]

/-- Empty table with `max_peers = 2` and `latency_period = 0`, the S3
configuration. -/
def tableS3 : RouteTable := ⟨locusZero, 2, 0, [], []⟩

/-- S3 table after inserting key `…01` and key `…02` at the same second. -/
def tableS3two : RouteTable :=
  ((tableS3.Insert (keyLast 1) "0.0.0.0" 1 100).2.Insert (keyLast 2) "0.0.0.0" 2 100).2

/-- S3 table after inserting keys `…02` and `…03` (which share bucket
`2^1`) at the same second. -/
def tableS3bloat : RouteTable :=
  ((tableS3.Insert (keyLast 2) "0.0.0.0" 1 100).2.Insert (keyLast 3) "0.0.0.0" 2 100).2

/-- S3 table after inserting key `…01` at time 100 and key `…02` at
time 101. -/
def tableS3times : RouteTable :=
  ((tableS3.Insert (keyLast 1) "0.0.0.0" 1 100).2.Insert (keyLast 2) "0.0.0.0" 2 101).2

/-- Live seed peer for the concrete lookup runs. -/
def peerSeed : Peer := ⟨keyLast 4, "1.1.1.1", 1, 0⟩

/-- A peer farther from the target than the seed. -/
def peerFar : Peer := ⟨keyLast 8, "1.1.1.1", 2, 0⟩

/-- A peer closer to the target than the seed. -/
def peerNear : Peer := ⟨keyLast 2, "1.1.1.1", 3, 0⟩

/-- A peer whose key is the host's own locus key. -/
def peerSelf : Peer := ⟨keyLast 9, "1.1.1.1", 4, 0⟩

/-- Lookup run in which the seed reports one peer beyond the frontier and
one inside it: everything is live, the host key is `…09`, the target the
zero key. -/
def cfgFrontier : LookupConfig :=
  { hostKey := keyLast 9
    searchKey := locusZero
    concurrentRequests := 3
    maxPeers := 20
    netFindNode := fun k => if k == peerSeed.key then some [peerFar, peerNear] else none
    alive := fun _ => true }

/-- Lookup run in which the seed reports the host itself. -/
def cfgSelfReport : LookupConfig :=
  { hostKey := keyLast 9
    searchKey := locusZero
    concurrentRequests := 3
    maxPeers := 20
    netFindNode := fun k => if k == peerSeed.key then some [peerSelf] else none
    alive := fun _ => true }

/-- Peer at XOR distance `2^64` from the zero key: the big-integer
distance difference to a peer at distance zero truncates to the int64
value `0`. -/
def peerPow64 : Peer := ⟨List.replicate 11 0 ++ [1] ++ List.replicate 8 0, "0.0.0.0", 1, 0⟩

/-- Peer at XOR distance zero from the zero key. -/
def peerZeroDist : Peer := ⟨List.replicate 20 0, "0.0.0.0", 2, 0⟩

/-- A well-formed node address whose port field, 70000, lies outside
`[0, 65535]`. -/
def addrBigPort : String :=
  "node://0000000000000000000000000000000000000001@1.2.3.4:70000"

/-- A syntactically invalid node address. -/
def addrBad : String := "not-a-node-address"

/-- A well-formed node address for the peer with key `…01`. -/
def addrPeerOne : String :=
  "node://0000000000000000000000000000000000000001@1.2.3.4:9"

/-- Empty routing table of a host with locus `…02`, `max_peers = 2`. -/
def tableHost : RouteTable := ⟨keyLast 2, 2, 3600, [], []⟩

/-- Wire oracle for an exchange that succeeds all the way to signature
verification and then yields a response that decodes with
`success = false`. -/
def wireFailResp : Wire :=
  { dialOk := true
    hostPort := some 30
    writeOk := true
    readResult := some (List.replicate 97 0)
    recoverKey := some (keyLast 1)
    response := some ⟨false, "boom"⟩ }

/-- Wire oracle for an exchange whose response signature fails to verify. -/
def wireBadSig : Wire :=
  { dialOk := true
    hostPort := some 30
    writeOk := true
    readResult := some (List.replicate 97 0)
    recoverKey := none
    response := some ⟨true, "pong"⟩ }

/-! ## Merge sort: agreement with the stable `List.mergeSort` -/

theorem mergePeersGo_eq_merge (f : Peer → Peer → Int) :
    ∀ (fuel : Nat) (xs ys : List Peer), xs.length + ys.length < fuel →
      mergePeersGo f fuel xs ys = List.merge xs ys (leOf f) := by
  intro fuel
  induction fuel with
  | zero =>
    intro xs ys h
    omega
  | succ fuel ih =>
    intro xs ys h
    match xs, ys with
    | [], ys => simp [mergePeersGo]
    | x :: xs, [] => simp [mergePeersGo]
    | x :: xs, y :: ys =>
      rw [List.cons_merge_cons]
      simp only [mergePeersGo]
      by_cases hc : 0 ≤ f x y
      · rw [if_pos hc, if_pos (show leOf f x y = true by simp [leOf, hc]),
          ih xs (y :: ys) (by simp at h ⊢; omega)]
      · rw [if_neg hc, if_neg (show ¬ leOf f x y = true by simp [leOf, hc]),
          ih (x :: xs) ys (by simp at h ⊢; omega)]

theorem mergePeers_eq_merge (f : Peer → Peer → Int) (xs ys : List Peer) :
    mergePeers f xs ys = List.merge xs ys (leOf f) :=
  mergePeersGo_eq_merge f (xs.length + ys.length + 1) xs ys (by omega)

theorem merge_mergeSort_take_drop (le : Peer → Peer → Bool) (L : List Peer) :
    List.merge ((L.take ((L.length + 1) / 2)).mergeSort le)
      ((L.drop ((L.length + 1) / 2)).mergeSort le) le = L.mergeSort le := by
  match L with
  | [] => simp
  | [a] => simp
  | a :: b :: xs =>
    conv_rhs => rw [List.mergeSort]
    simp only [List.splitInTwo_fst, List.splitInTwo_snd, List.length_cons]

theorem mergeSortPeersGo_eq (f : Peer → Peer → Int) :
    ∀ (fuel : Nat) (A B : List Peer),
      2 * (A.length + B.length) + (1 - min 1 (min A.length B.length)) < fuel →
      mergeSortPeersGo f fuel A B
        = List.merge (A.mergeSort (leOf f)) (B.mergeSort (leOf f)) (leOf f) := by
  intro fuel
  induction fuel with
  | zero =>
    intro A B h
    omega
  | succ fuel ih =>
    intro A B h
    rw [mergeSortPeersGo]
    split
    · next hb =>
      obtain ⟨a0, b0⟩ := hb
      rw [List.length_eq_zero.mp a0, List.length_eq_zero.mp b0]
      simp
    · split
      · next hb =>
        obtain ⟨a1, b0⟩ := hb
        obtain ⟨a, rfl⟩ := List.length_eq_one.mp a1
        rw [List.length_eq_zero.mp b0]
        simp
      · split
        · next hb =>
          obtain ⟨b1, a0⟩ := hb
          obtain ⟨b, rfl⟩ := List.length_eq_one.mp b1
          rw [List.length_eq_zero.mp a0]
          simp
        · next h1 h2 h3 =>
          dsimp only
          rw [ih (A.take ((A.length + 1) / 2)) (A.drop ((A.length + 1) / 2)) (by
            simp only [List.length_take, List.length_drop]
            omega)]
          rw [ih (B.take ((B.length + 1) / 2)) (B.drop ((B.length + 1) / 2)) (by
            simp only [List.length_take, List.length_drop]
            omega)]
          rw [mergePeers_eq_merge]
          rw [merge_mergeSort_take_drop, merge_mergeSort_take_drop]

theorem MergeSortPeers_eq (f : Peer → Peer → Int) (A B : List Peer) :
    MergeSortPeers f A B
      = List.merge (A.mergeSort (leOf f)) (B.mergeSort (leOf f)) (leOf f) :=
  mergeSortPeersGo_eq f (2 * (A.length + B.length) + 2) A B (by omega)

theorem SortPeersByClosest_eq_mergeSort (peers : List Peer) (k : Bytes) :
    SortPeersByClosest peers k = peers.mergeSort (leOf (closestSortFunc k)) := by
  rw [SortPeersByClosest, MergeSortPeers_eq]
  simp

/-! ## The byte-wise comparison is a total preorder -/

theorem bytesCompare_self : ∀ a : Bytes, bytesCompare a a = 0
  | [] => rfl
  | _ :: xs => by simp [bytesCompare, bytesCompare_self xs]

theorem bytesCompare_nonneg_total : ∀ a b : Bytes,
    0 ≤ bytesCompare a b ∨ 0 ≤ bytesCompare b a
  | [], [] => by simp [bytesCompare]
  | [], _ :: _ => by simp [bytesCompare]
  | _ :: _, [] => by simp [bytesCompare]
  | a :: as, b :: bs => by
    rcases Nat.lt_trichotomy a b with h | h | h
    · right
      simp only [bytesCompare]
      rw [if_neg (by omega), if_pos h]
      omega
    · subst h
      rcases bytesCompare_nonneg_total as bs with h' | h'
      · left
        simp only [bytesCompare]
        rw [if_neg (by omega), if_neg (by omega)]
        exact h'
      · right
        simp only [bytesCompare]
        rw [if_neg (by omega), if_neg (by omega)]
        exact h'
    · left
      simp only [bytesCompare]
      rw [if_neg (by omega), if_pos h]
      omega

theorem bytesCompare_nonneg_trans : ∀ a b c : Bytes,
    0 ≤ bytesCompare b a → 0 ≤ bytesCompare c b → 0 ≤ bytesCompare c a
  | [], _, c => fun _ _ => by
    cases c <;> simp [bytesCompare]
  | _ :: _, [], _ => fun h1 _ => by
    simp [bytesCompare] at h1
  | _ :: _, _ :: _, [] => fun _ h2 => by
    simp [bytesCompare] at h2
  | a :: as, b :: bs, c :: cs => fun h1 h2 => by
    simp only [bytesCompare] at h1 h2 ⊢
    by_cases hba : b < a
    · rw [if_pos hba] at h1
      omega
    · rw [if_neg hba] at h1
      by_cases hcb : c < b
      · rw [if_pos hcb] at h2
        omega
      · rw [if_neg hcb] at h2
        by_cases hab : a < b
        · rw [if_neg (by omega), if_pos (by omega)]
          omega
        · rw [if_neg hab] at h1
          by_cases hbc : b < c
          · rw [if_neg (by omega), if_pos (by omega)]
            omega
          · rw [if_neg hbc] at h2
            rw [if_neg (by omega), if_neg (by omega)]
            exact bytesCompare_nonneg_trans as bs cs h1 h2

/-! ## The proximity sort is a stable sort by XOR distance -/

theorem leOf_closest_trans (k : Bytes) : ∀ a b c : Peer,
    leOf (closestSortFunc k) a b = true → leOf (closestSortFunc k) b c = true →
    leOf (closestSortFunc k) a c = true := by
  intro a b c h1 h2
  simp only [leOf, closestSortFunc, decide_eq_true_eq] at h1 h2 ⊢
  exact bytesCompare_nonneg_trans _ _ _ h1 h2

theorem leOf_closest_total (k : Bytes) : ∀ a b : Peer,
    (leOf (closestSortFunc k) a b || leOf (closestSortFunc k) b a) = true := by
  intro a b
  simp only [leOf, closestSortFunc, Bool.or_eq_true, decide_eq_true_eq]
  exact bytesCompare_nonneg_total _ _

theorem SortPeersByClosest_sorted (peers : List Peer) (k : Bytes) :
    (SortPeersByClosest peers k).Pairwise (closerOrTied k) := by
  rw [SortPeersByClosest_eq_mergeSort]
  have h := List.sorted_mergeSort (leOf_closest_trans k) (leOf_closest_total k) peers
  exact h.imp (fun hab => by
    simpa [leOf, closerOrTied, decide_eq_true_eq] using hab)

theorem SortPeersByClosest_perm (peers : List Peer) (k : Bytes) :
    List.Perm (SortPeersByClosest peers k) peers := by
  rw [SortPeersByClosest_eq_mergeSort]
  exact List.mergeSort_perm peers _

theorem MergeSortPeers_single_perm (f : Peer → Peer → Int) (l : List Peer) :
    List.Perm (MergeSortPeers f l []) l := by
  rw [MergeSortPeers_eq]
  simp only [List.mergeSort_nil, List.merge_right]
  exact List.mergeSort_perm l _

theorem SortPeersByClosest_filter_stable (peers : List Peer) (k d : Bytes) :
    (SortPeersByClosest peers k).filter (fun p => XORBytes p.key k == d)
      = peers.filter (fun p => XORBytes p.key k == d) := by
  set q : Peer → Bool := fun p => XORBytes p.key k == d with hq
  set le := leOf (closestSortFunc k) with hle
  have hc : (peers.filter q).Pairwise (fun a b => le a b = true) := by
    apply List.pairwise_of_forall_mem_list
    intro a ha b hb
    rw [List.mem_filter] at ha hb
    have hda : XORBytes a.key k = d := by
      have := ha.2
      simp only [hq, beq_iff_eq] at this
      exact this
    have hdb : XORBytes b.key k = d := by
      have := hb.2
      simp only [hq, beq_iff_eq] at this
      exact this
    simp [hle, leOf, closestSortFunc, hda, hdb, bytesCompare_self]
  have hsub : List.Sublist (peers.filter q) (peers.mergeSort le) :=
    List.sublist_mergeSort (leOf_closest_trans k) (leOf_closest_total k) hc
      (List.filter_sublist peers)
  have hfix : (peers.filter q).filter q = peers.filter q := by
    simp [List.filter_filter]
  have hsub2 : List.Sublist (peers.filter q) ((peers.mergeSort le).filter q) := by
    have h2 := hsub.filter q
    rwa [hfix] at h2
  have hlen : ((peers.mergeSort le).filter q).length = (peers.filter q).length := by
    rw [← List.countP_eq_length_filter, ← List.countP_eq_length_filter]
    exact (List.mergeSort_perm peers le).countP_eq q
  rw [SortPeersByClosest_eq_mergeSort, ← hle]
  exact (hsub2.eq_of_length hlen.symm).symm

/-! ## Splices, erasures and the peers-to-bucket projection -/

theorem spliceAt_of_findIdx? (p : α → Bool) :
    ∀ (l : List α) (i : Nat), l.findIdx? p = some i → spliceAt l i = l.eraseP p
  | [], i => by simp
  | x :: xs, i => by
    intro h
    rw [List.findIdx?_cons] at h
    by_cases hx : p x
    · rw [if_pos hx] at h
      cases h
      simp [spliceAt, List.eraseP_cons_of_pos hx]
    · rw [if_neg hx, List.findIdx?_succ] at h
      obtain ⟨j, hj, rfl⟩ := Option.map_eq_some'.mp h
      have := spliceAt_of_findIdx? p xs j hj
      simp only [spliceAt] at this ⊢
      rw [List.eraseP_cons_of_neg hx]
      simp only [List.take_succ_cons, List.drop_succ_cons, List.cons_append]
      rw [this]

theorem findIdx?_getD_sat (p : α → Bool) (l : List α) (i : Nat) (d : α)
    (h : l.findIdx? p = some i) : p (l.getD i d) = true ∧ l.getD i d ∈ l := by
  obtain ⟨hlt, hp, -⟩ := List.findIdx?_eq_some_iff_getElem.mp h
  rw [List.getD_eq_getElem?_getD, List.getElem?_eq_getElem hlt]
  exact ⟨hp, List.getElem_mem hlt⟩

theorem map_key_filter_eraseP_of_sat (k : Bytes) (r : Peer → Bool) :
    ∀ l : List Peer, (∀ p ∈ l, p.key = k → r p = true) →
      ((l.eraseP (fun p => p.key == k)).filter r).map Peer.key
        = ((l.filter r).map Peer.key).eraseP (fun pk => pk == k)
  | [], _ => by simp
  | x :: xs, hall => by
    by_cases hx : x.key = k
    · rw [List.eraseP_cons_of_pos (by simpa using hx)]
      rw [List.filter_cons_of_pos (hall x (by simp) hx), List.map_cons]
      rw [List.eraseP_cons_of_pos (by simpa using hx)]
    · rw [List.eraseP_cons_of_neg (by simpa using hx)]
      by_cases hrx : r x
      · rw [List.filter_cons_of_pos hrx, List.filter_cons_of_pos hrx, List.map_cons,
          List.map_cons, List.eraseP_cons_of_neg (by simpa using hx)]
        rw [map_key_filter_eraseP_of_sat k r xs (fun p hp => hall p (by simp [hp]))]
      · rw [List.filter_cons_of_neg hrx, List.filter_cons_of_neg hrx]
        exact map_key_filter_eraseP_of_sat k r xs (fun p hp => hall p (by simp [hp]))

theorem map_key_filter_eraseP_of_unsat (k : Bytes) (r : Peer → Bool) :
    ∀ l : List Peer, (∀ p ∈ l, p.key = k → r p = false) →
      ((l.eraseP (fun p => p.key == k)).filter r).map Peer.key
        = (l.filter r).map Peer.key
  | [], _ => by simp
  | x :: xs, hall => by
    by_cases hx : x.key = k
    · rw [List.eraseP_cons_of_pos (by simpa using hx)]
      rw [List.filter_cons_of_neg (by simp [hall x (by simp) hx])]
    · rw [List.eraseP_cons_of_neg (by simpa using hx)]
      by_cases hrx : r x
      · rw [List.filter_cons_of_pos hrx, List.filter_cons_of_pos hrx, List.map_cons,
          List.map_cons]
        rw [map_key_filter_eraseP_of_unsat k r xs (fun p hp => hall p (by simp [hp]))]
      · rw [List.filter_cons_of_neg hrx, List.filter_cons_of_neg hrx]
        exact map_key_filter_eraseP_of_unsat k r xs (fun p hp => hall p (by simp [hp]))

theorem map_key_filter_set (r : Peer → Bool) :
    ∀ (l : List Peer) (i : Nat) (x : Peer),
      x.key = (l.getD i dummyPeer).key → r x = r (l.getD i dummyPeer) →
      ((l.set i x).filter r).map Peer.key = (l.filter r).map Peer.key
  | [], i, x => by simp
  | y :: ys, 0, x => by
    intro hk hr
    simp only [List.getD_eq_getElem?_getD, List.getElem?_cons_zero, Option.getD_some] at hk hr
    rw [List.set_cons_zero]
    by_cases hry : r y
    · rw [List.filter_cons_of_pos (hr ▸ hry), List.filter_cons_of_pos hry,
        List.map_cons, List.map_cons, hk]
    · rw [List.filter_cons_of_neg (fun hc => hry (hr ▸ hc)), List.filter_cons_of_neg hry]
  | y :: ys, i + 1, x => by
    intro hk hr
    simp only [List.getD_eq_getElem?_getD, List.getElem?_cons_succ] at hk hr
    rw [List.set_cons_succ]
    by_cases hry : r y
    · rw [List.filter_cons_of_pos hry, List.filter_cons_of_pos hry, List.map_cons,
        List.map_cons]
      rw [map_key_filter_set r ys i x (by simpa [List.getD_eq_getElem?_getD] using hk)
        (by simpa [List.getD_eq_getElem?_getD] using hr)]
    · rw [List.filter_cons_of_neg hry, List.filter_cons_of_neg hry]
      exact map_key_filter_set r ys i x (by simpa [List.getD_eq_getElem?_getD] using hk)
        (by simpa [List.getD_eq_getElem?_getD] using hr)

theorem map_key_set (l : List Peer) (i : Nat) (x : Peer)
    (hk : x.key = (l.getD i dummyPeer).key) :
    (l.set i x).map Peer.key = l.map Peer.key := by
  have h := map_key_filter_set (fun _ => true) l i x hk rfl
  simpa using h

theorem getLastD_mem_of_ne_nil (l : List α) (d : α) (h : l ≠ []) :
    l.getLastD d ∈ l := by
  rw [List.getLastD_eq_getLast?, List.getLast?_eq_getLast l h, Option.getD_some]
  exact List.getLast_mem h

/-! ## Reads and writes of the modelled bucket map -/

theorem find?_bucketWrite_self (kb : List (Nat × List Bytes)) (b : Nat) (v : List Bytes) :
    (bucketWrite kb b v).find? (fun e => e.1 == b) = some (b, v) := by
  unfold bucketWrite
  by_cases h : (kb.find? (fun e => e.1 == b)).isSome
  · rw [if_pos h]
    induction kb with
    | nil => simp at h
    | cons e es ih =>
      by_cases he : e.1 == b
      · rw [List.map_cons, if_pos he,
          List.find?_cons_of_pos (p := fun x : Nat × List Bytes => x.1 == b) _ (by simp)]
      · rw [List.find?_cons_of_neg (p := fun x : Nat × List Bytes => x.1 == b) _ (by simpa using he)] at h
        rw [List.map_cons, if_neg (by simpa using he),
          List.find?_cons_of_neg (p := fun x : Nat × List Bytes => x.1 == b) _ (by simpa using he)]
        exact ih h
  · rw [if_neg h, List.find?_append,
      Option.not_isSome_iff_eq_none.mp h]
    simp [List.find?_cons]

theorem lookupBucket_bucketWrite_self (kb : List (Nat × List Bytes)) (b : Nat)
    (v : List Bytes) : lookupBucket (bucketWrite kb b v) b = some v := by
  rw [lookupBucket, find?_bucketWrite_self, Option.map_some']

theorem find?_bucketWrite_ne (kb : List (Nat × List Bytes)) (b : Nat) (v : List Bytes)
    (b' : Nat) (hne : b' ≠ b) :
    (bucketWrite kb b v).find? (fun e => e.1 == b') = kb.find? (fun e => e.1 == b') := by
  unfold bucketWrite
  by_cases h : (kb.find? (fun e => e.1 == b)).isSome
  · rw [if_pos h]
    clear h
    induction kb with
    | nil => simp
    | cons e es ih =>
      by_cases he : e.1 == b
      · have he' : e.1 = b := by simpa using he
        rw [List.map_cons, if_pos he,
          List.find?_cons_of_neg (p := fun x : Nat × List Bytes => x.1 == b') _ (by simpa using (Ne.symm hne)),
          List.find?_cons_of_neg (p := fun x : Nat × List Bytes => x.1 == b') _ (by simp [he', Ne.symm hne])]
        exact ih
      · rw [List.map_cons, if_neg (by simpa using he)]
        by_cases he2 : e.1 == b'
        · rw [List.find?_cons_of_pos (p := fun x : Nat × List Bytes => x.1 == b') _ he2,
            List.find?_cons_of_pos (p := fun x : Nat × List Bytes => x.1 == b') _ he2]
        · rw [List.find?_cons_of_neg (p := fun x : Nat × List Bytes => x.1 == b') _ (by simpa using he2),
            List.find?_cons_of_neg (p := fun x : Nat × List Bytes => x.1 == b') _ (by simpa using he2)]
          exact ih
  · rw [if_neg h, List.find?_append]
    have hnil : ([((b : Nat), v)].find? (fun e => e.1 == b')) = none := by
      simp [List.find?_cons, Ne.symm hne]
    rw [hnil]
    cases kb.find? (fun e => e.1 == b') <;> simp

theorem lookupBucket_bucketWrite_ne (kb : List (Nat × List Bytes)) (b : Nat)
    (v : List Bytes) (b' : Nat) (hne : b' ≠ b) :
    lookupBucket (bucketWrite kb b v) b' = lookupBucket kb b' := by
  rw [lookupBucket, lookupBucket, find?_bucketWrite_ne kb b v b' hne]

theorem mem_bucketWrite (kb : List (Nat × List Bytes)) (b : Nat) (v : List Bytes)
    (e : Nat × List Bytes) (he : e ∈ bucketWrite kb b v) :
    e = (b, v) ∨ (e ∈ kb ∧ e.1 ≠ b) := by
  unfold bucketWrite at he
  by_cases h : (kb.find? (fun e => e.1 == b)).isSome
  · rw [if_pos h] at he
    obtain ⟨e0, he0, heq⟩ := List.mem_map.mp he
    by_cases h0 : e0.1 == b
    · rw [if_pos h0] at heq
      exact Or.inl heq.symm
    · rw [if_neg h0] at heq
      exact Or.inr ⟨heq ▸ he0, by simpa using (heq ▸ h0 : ¬ e.1 == b)⟩
  · rw [if_neg h] at he
    rcases List.mem_append.mp he with hin | hin
    · refine Or.inr ⟨hin, ?_⟩
      have := List.find?_eq_none.mp (Option.not_isSome_iff_eq_none.mp h) e hin
      simpa using this
    · exact Or.inl (by simpa using hin)

theorem lookupBucket_append_empty_self (kb : List (Nat × List Bytes)) (b : Nat)
    (habs : lookupBucket kb b = none) :
    lookupBucket (kb ++ [(b, [])]) b = some [] := by
  rw [lookupBucket] at habs ⊢
  rw [List.find?_append]
  have : kb.find? (fun e => e.1 == b) = none := by
    cases hf : kb.find? (fun e => e.1 == b)
    · rfl
    · rw [hf] at habs
      simp at habs
  rw [this]
  simp [List.find?_cons]

theorem lookupBucket_append_none (kb : List (Nat × List Bytes)) (e : Nat × List Bytes)
    (b : Nat) (h : lookupBucket (kb ++ [e]) b = none) : lookupBucket kb b = none := by
  rw [lookupBucket, List.find?_append] at h
  rw [lookupBucket]
  cases hf : kb.find? (fun x => x.1 == b)
  · rfl
  · rw [hf] at h
    simp at h

theorem bucketRead_eq_spec (t : RouteTable) (hInv : TableInv t) (b : Nat) :
    bucketRead t.kbucket b = bucketSpec t b := by
  rw [bucketRead]
  cases hf : lookupBucket t.kbucket b with
  | none => rw [(hInv.missing b hf)]; rfl
  | some entry =>
    rw [Option.getD_some]
    rw [lookupBucket] at hf
    obtain ⟨e, he, hmap⟩ := Option.map_eq_some'.mp hf
    have hmem := List.mem_of_find?_eq_some he
    have hpred : e.1 = b := by simpa using List.find?_some he
    rw [← hmap, hInv.entries e hmem, hpred]

/-! ## `Remove` characterised, and the invariant preserved by it -/

theorem Remove_of_not_mem (t : RouteTable) (key : Bytes)
    (h : ∀ p ∈ t.peers, p.key ≠ key) :
    t.Remove key = (some "peer not found in peers list", t) := by
  unfold RouteTable.Remove
  have hf : t.peers.findIdx? (fun p => p.key == key) = none := by
    rw [List.findIdx?_eq_none_iff]
    intro x hx
    simpa using h x hx
  rw [hf]

theorem Remove_of_mem (t : RouteTable) (key : Bytes) (hInv : TableInv t)
    (p0 : Peer) (hp0 : p0 ∈ t.peers) (hk : p0.key = key) :
    t.Remove key = (none, removedTable t key) := by
  have hs : (t.peers.findIdx? (fun p => p.key == key)).isSome := by
    rw [List.findIdx?_isSome]
    exact List.any_eq_true.mpr ⟨p0, hp0, by simpa using hk⟩
  obtain ⟨i, hi⟩ := Option.isSome_iff_exists.mp hs
  obtain ⟨hpi, hmem⟩ := findIdx?_getD_sat _ _ _ dummyPeer hi
  have hkey : (t.peers.getD i dummyPeer).key = key := by simpa using hpi
  have hlen : (t.peers.getD i dummyPeer).key.length = t.locusKey.length :=
    hInv.lenKeys _ hmem
  have hcalc : t.calculateKBucketKey (t.peers.getD i dummyPeer).key
      = .ok (kbucketIndex t.locusKey key) := by
    unfold RouteTable.calculateKBucketKey
    rw [if_neg (fun hc => hc hlen), hkey]
  have hkmem : key ∈ bucketSpec t (kbucketIndex t.locusKey key) := by
    rw [bucketSpec]
    refine List.mem_map.mpr ⟨t.peers.getD i dummyPeer, ?_, hkey⟩
    refine List.mem_filter.mpr ⟨hmem, ?_⟩
    rw [hkey]
    exact beq_self_eq_true _
  have hlook : lookupBucket t.kbucket (kbucketIndex t.locusKey key)
      = some (bucketRead t.kbucket (kbucketIndex t.locusKey key)) := by
    cases hf : lookupBucket t.kbucket (kbucketIndex t.locusKey key) with
    | none =>
      rw [hInv.missing _ hf] at hkmem
      simp at hkmem
    | some entry => rw [bucketRead, hf, Option.getD_some]
  have hks : ((bucketRead t.kbucket (kbucketIndex t.locusKey key)).findIdx?
      (fun pk => pk == (t.peers.getD i dummyPeer).key)).isSome := by
    rw [List.findIdx?_isSome]
    refine List.any_eq_true.mpr ⟨key, ?_, by rw [hkey]; exact beq_self_eq_true _⟩
    rw [bucketRead_eq_spec t hInv]
    exact hkmem
  obtain ⟨j, hj⟩ := Option.isSome_iff_exists.mp hks
  unfold RouteTable.Remove
  rw [hi]
  dsimp only
  rw [hcalc]
  dsimp only
  rw [hlook]
  dsimp only
  rw [hj]
  dsimp only
  rw [spliceAt_of_findIdx? _ _ _ hi, spliceAt_of_findIdx? _ _ _ hj]
  rw [removedTable, hkey]

theorem removedTable_inv (t : RouteTable) (key : Bytes) (hInv : TableInv t) :
    TableInv (removedTable t key) := by
  constructor
  · exact hInv.nodupKeys.sublist ((List.eraseP_sublist _).map Peer.key)
  · intro p hp
    exact hInv.lenKeys p (List.mem_of_mem_eraseP hp)
  · intro e he
    rcases mem_bucketWrite _ _ _ e he with rfl | ⟨hin, hne⟩
    · show (bucketRead t.kbucket (kbucketIndex t.locusKey key)).eraseP (fun pk => pk == key)
        = bucketSpec (removedTable t key) (kbucketIndex t.locusKey key)
      rw [bucketRead_eq_spec t hInv]
      have hall : ∀ p ∈ t.peers, p.key = key →
          (kbucketIndex t.locusKey p.key == kbucketIndex t.locusKey key) = true := by
        intro p _ hpk
        simp [hpk]
      have h := map_key_filter_eraseP_of_sat key
        (fun p => kbucketIndex t.locusKey p.key == kbucketIndex t.locusKey key) t.peers hall
      exact h.symm
    · rw [hInv.entries e hin]
      have hne' : e.1 ≠ kbucketIndex t.locusKey key := hne
      have hall : ∀ p ∈ t.peers, p.key = key →
          (kbucketIndex t.locusKey p.key == e.1) = false := by
        intro p _ hpk
        simp only [beq_eq_false_iff_ne, ne_eq, hpk]
        intro hc
        exact hne' hc.symm
      exact (map_key_filter_eraseP_of_unsat key _ t.peers hall).symm
  · intro b hb
    simp only [removedTable] at hb
    have hneb : b ≠ kbucketIndex t.locusKey key := by
      intro heq
      rw [heq, lookupBucket_bucketWrite_self] at hb
      simp at hb
    have hb' : lookupBucket t.kbucket b = none := by
      rwa [lookupBucket_bucketWrite_ne _ _ _ _ hneb] at hb
    have hall : ∀ p ∈ t.peers, p.key = key →
        (kbucketIndex t.locusKey p.key == b) = false := by
      intro p _ hpk
      simp only [beq_eq_false_iff_ne, ne_eq, hpk]
      intro hc
      exact hneb hc.symm
    show bucketSpec (removedTable t key) b = []
    have h := map_key_filter_eraseP_of_unsat key
      (fun p => kbucketIndex t.locusKey p.key == b) t.peers hall
    calc bucketSpec (removedTable t key) b
        = ((t.peers.eraseP (fun p => p.key == key)).filter
            (fun p => kbucketIndex t.locusKey p.key == b)).map Peer.key := rfl
      _ = (t.peers.filter (fun p => kbucketIndex t.locusKey p.key == b)).map Peer.key := h
      _ = bucketSpec t b := rfl
      _ = [] := hInv.missing b hb'

/-! ## The invariant is preserved by the insertion paths -/

theorem appendPeer_inv (t : RouteTable) (key : Bytes) (ip : String) (port ls : Int)
    (hInv : TableInv t) (hnot : ∀ p ∈ t.peers, p.key ≠ key)
    (hlen : key.length = t.locusKey.length) :
    TableInv (appendPeer t ⟨key, ip, port, ls⟩ (kbucketIndex t.locusKey key)) := by
  constructor
  · show ((t.peers ++ [(⟨key, ip, port, ls⟩ : Peer)]).map Peer.key).Nodup
    rw [List.map_append]
    rw [List.nodup_append]
    refine ⟨hInv.nodupKeys, by simp, ?_⟩
    intro a ha hb
    simp only [List.map_cons, List.map_nil, List.mem_singleton] at hb
    obtain ⟨p, hp, hpk⟩ := List.mem_map.mp ha
    exact hnot p hp (hpk.trans hb)
  · intro p hp
    rcases List.mem_append.mp hp with h | h
    · exact hInv.lenKeys p h
    · rw [List.mem_singleton] at h
      subst h
      exact hlen
  · intro e he
    rcases mem_bucketWrite _ _ _ e he with rfl | ⟨hin, hne⟩
    · show bucketRead t.kbucket (kbucketIndex t.locusKey key) ++ [key]
        = bucketSpec (appendPeer t ⟨key, ip, port, ls⟩ (kbucketIndex t.locusKey key))
            (kbucketIndex t.locusKey key)
      rw [bucketRead_eq_spec t hInv]
      show bucketSpec t (kbucketIndex t.locusKey key) ++ [key]
        = ((t.peers ++ [(⟨key, ip, port, ls⟩ : Peer)]).filter
            (fun p => kbucketIndex t.locusKey p.key == kbucketIndex t.locusKey key)).map
              Peer.key
      rw [List.filter_append, List.map_append]
      congr 1
      simp
    · rw [hInv.entries e hin]
      show bucketSpec t e.1
        = bucketSpec (appendPeer t ⟨key, ip, port, ls⟩ (kbucketIndex t.locusKey key)) e.1
      show (t.peers.filter (fun p => kbucketIndex t.locusKey p.key == e.1)).map Peer.key
        = ((t.peers ++ [(⟨key, ip, port, ls⟩ : Peer)]).filter
            (fun p => kbucketIndex t.locusKey p.key == e.1)).map Peer.key
      rw [List.filter_append]
      have hzero : (([(⟨key, ip, port, ls⟩ : Peer)] : List Peer).filter
          (fun p => kbucketIndex t.locusKey p.key == e.1)) = [] := by
        simp only [List.filter_cons, List.filter_nil]
        rw [if_neg]
        intro hc
        rw [beq_iff_eq] at hc
        exact hne hc.symm
      rw [hzero, List.append_nil]
  · intro b hb
    simp only [appendPeer] at hb
    have hneb : b ≠ kbucketIndex t.locusKey key := by
      intro heq
      rw [heq, lookupBucket_bucketWrite_self] at hb
      simp at hb
    have hb' : lookupBucket t.kbucket b = none := by
      rwa [lookupBucket_bucketWrite_ne _ _ _ _ hneb] at hb
    show bucketSpec (appendPeer t ⟨key, ip, port, ls⟩ (kbucketIndex t.locusKey key)) b = []
    show ((t.peers ++ [(⟨key, ip, port, ls⟩ : Peer)]).filter
        (fun p => kbucketIndex t.locusKey p.key == b)).map Peer.key = []
    rw [List.filter_append]
    have hzero : (([(⟨key, ip, port, ls⟩ : Peer)] : List Peer).filter
        (fun p => kbucketIndex t.locusKey p.key == b)) = [] := by
      simp only [List.filter_cons, List.filter_nil]
      rw [if_neg]
      intro hc
      rw [beq_iff_eq] at hc
      exact hneb hc.symm
    rw [hzero, List.append_nil]
    exact hInv.missing b hb'

theorem addEmptyBucket_inv (t : RouteTable) (b : Nat) (hInv : TableInv t)
    (habs : lookupBucket t.kbucket b = none) :
    TableInv { t with kbucket := t.kbucket ++ [(b, [])] } := by
  constructor
  · exact hInv.nodupKeys
  · exact hInv.lenKeys
  · intro e he
    rcases List.mem_append.mp he with h | h
    · exact hInv.entries e h
    · rw [List.mem_singleton] at h
      subst h
      exact (hInv.missing b habs).symm
  · intro b' hb'
    exact hInv.missing b' (lookupBucket_append_none _ _ _ hb')

theorem lastSeenReplace_inv (t1 : RouteTable) (key : Bytes) (ip : String)
    (port now : Int) (hInv1 : TableInv t1) (hnot : ∀ p ∈ t1.peers, p.key ≠ key)
    (hlen : key.length = t1.locusKey.length) :
    TableInv (lastSeenReplace t1 ⟨key, ip, port, now⟩
      (kbucketIndex t1.locusKey key) now).2 := by
  unfold lastSeenReplace
  dsimp only
  split
  · by_cases hpe : t1.peers = []
    · have hsorted : t1.SortPeersByLastSeen = [] := by
        rw [RouteTable.SortPeersByLastSeen, hpe]
        rfl
      rw [hsorted]
      have hrem : t1.Remove (([] : List Peer).getLastD dummyPeer).key
          = (some "peer not found in peers list", t1) := by
        apply Remove_of_not_mem
        rw [hpe]
        intro p hp
        simp at hp
      rw [hrem]
      exact hInv1
    · have hperm : List.Perm t1.SortPeersByLastSeen t1.peers :=
        MergeSortPeers_single_perm lastSeenSortFunc t1.peers
      have hne : t1.SortPeersByLastSeen ≠ [] := by
        intro h
        rw [h] at hperm
        exact hpe (hperm.symm.eq_nil.symm ▸ rfl)
      have hmem : (t1.SortPeersByLastSeen).getLastD dummyPeer ∈ t1.peers :=
        hperm.mem_iff.mp (getLastD_mem_of_ne_nil _ _ hne)
      rw [Remove_of_mem t1 _ hInv1 _ hmem rfl]
      dsimp only
      exact appendPeer_inv (removedTable t1 _) key ip port now
        (removedTable_inv t1 _ hInv1)
        (fun p hp => hnot p (List.mem_of_mem_eraseP hp)) hlen
  · exact hInv1

theorem insertNewPeer_inv (t1 : RouteTable) (key : Bytes) (ip : String) (port now : Int)
    (hInv1 : TableInv t1) (hnot : ∀ p ∈ t1.peers, p.key ≠ key)
    (hlen : key.length = t1.locusKey.length) :
    TableInv (insertNewPeer t1 ⟨key, ip, port, now⟩
      (kbucketIndex t1.locusKey key) now).2 := by
  unfold insertNewPeer
  split
  · exact appendPeer_inv t1 key ip port now hInv1 hnot hlen
  · split
    · cases hfind : t1.kbucket.find? (fun e => decide (1 < e.2.length)) with
      | some entry =>
        dsimp only
        have hmem := List.mem_of_find?_eq_some hfind
        have hlen2 : 1 < entry.2.length := by
          have := List.find?_some hfind
          simpa using this
        have hentry := hInv1.entries entry hmem
        have htail : entry.2.getLastD [] ∈ entry.2 :=
          getLastD_mem_of_ne_nil _ _ (by
            intro h
            rw [h] at hlen2
            simp at hlen2)
        have htail' : entry.2.getLastD [] ∈ bucketSpec t1 entry.1 := by
          rw [← hentry]
          exact htail
        obtain ⟨q, hq, hqk⟩ := List.mem_map.mp htail'
        have hq' : q ∈ t1.peers := (List.mem_filter.mp hq).1
        rw [Remove_of_mem t1 _ hInv1 q hq' hqk]
        dsimp only
        exact appendPeer_inv (removedTable t1 _) key ip port now
          (removedTable_inv t1 _ hInv1)
          (fun p hp => hnot p (List.mem_of_mem_eraseP hp)) hlen
      | none =>
        exact lastSeenReplace_inv t1 key ip port now hInv1 hnot hlen
    · exact lastSeenReplace_inv t1 key ip port now hInv1 hnot hlen

theorem Insert_inv (t : RouteTable) (key : Bytes) (ip : String) (port now : Int)
    (hInv : TableInv t) : TableInv (t.Insert key ip port now).2 := by
  unfold RouteTable.Insert
  by_cases hloc : key == t.locusKey
  · rw [if_pos hloc]
    exact hInv
  · rw [if_neg hloc]
    cases hf : t.peers.findIdx? (fun p => p.key == key) with
    | some i =>
      dsimp only
      obtain ⟨hpi, hmem⟩ := findIdx?_getD_sat _ _ _ dummyPeer hf
      constructor
      · show ((t.peers.set i _).map Peer.key).Nodup
        rw [map_key_set t.peers i
          ⟨(t.peers.getD i dummyPeer).key, ip, port, now⟩ rfl]
        exact hInv.nodupKeys
      · intro p hp
        rcases List.mem_or_eq_of_mem_set hp with h | h
        · exact hInv.lenKeys p h
        · subst h
          exact hInv.lenKeys (t.peers.getD i dummyPeer) hmem
      · intro e he
        rw [hInv.entries e he]
        exact (map_key_filter_set (fun p => kbucketIndex t.locusKey p.key == e.1)
          t.peers i ⟨(t.peers.getD i dummyPeer).key, ip, port, now⟩ rfl rfl).symm
      · intro b hb
        exact (map_key_filter_set (fun p => kbucketIndex t.locusKey p.key == b)
          t.peers i ⟨(t.peers.getD i dummyPeer).key, ip, port, now⟩ rfl rfl).trans
          (hInv.missing b hb)
    | none =>
      dsimp only
      cases hc : t.calculateKBucketKey key with
      | error e =>
        exact hInv
      | ok b =>
        have hok : key.length = t.locusKey.length ∧ b = kbucketIndex t.locusKey key := by
          unfold RouteTable.calculateKBucketKey at hc
          by_cases h : key.length ≠ t.locusKey.length
          · rw [if_pos h] at hc
            cases hc
          · rw [if_neg h] at hc
            cases hc
            exact ⟨not_not.mp h, rfl⟩
        obtain ⟨hlen, hbeq⟩ := hok
        subst hbeq
        have hnot : ∀ p ∈ t.peers, p.key ≠ key := by
          intro p hp
          have := List.findIdx?_eq_none_iff.mp hf p hp
          simpa using this
        dsimp only
        by_cases habs : (lookupBucket t.kbucket (kbucketIndex t.locusKey key)).isNone = true
        · rw [if_pos habs]
          exact insertNewPeer_inv _ key ip port now
            (addEmptyBucket_inv t _ hInv (Option.isNone_iff_eq_none.mp habs)) hnot hlen
        · rw [if_neg habs]
          exact insertNewPeer_inv _ key ip port now hInv hnot hlen

theorem emptyTable_inv (locusKey : Bytes) (maxPeers latencyPeriod : Int) :
    TableInv ⟨locusKey, maxPeers, latencyPeriod, [], []⟩ := by
  constructor
  · simp
  · intro p hp
    simp at hp
  · intro e he
    simp at he
  · intro b _
    rfl

theorem applyInserts_inv (ops : List (Bytes × String × Int × Int)) :
    ∀ t : RouteTable, TableInv t → TableInv (applyInserts t ops) := by
  induction ops with
  | nil => intro t h; exact h
  | cons op rest ih =>
    intro t h
    exact ih _ (Insert_inv t op.1 op.2.1 op.2.2.1 op.2.2.2 h)

theorem inv_key_iff_unique_bucket (t : RouteTable) (hInv : TableInv t) (k : Bytes) :
    k ∈ t.peers.map Peer.key ↔ ∃! b : Nat, k ∈ bucketRead t.kbucket b := by
  constructor
  · intro hk
    obtain ⟨p, hp, hpk⟩ := List.mem_map.mp hk
    refine ⟨kbucketIndex t.locusKey k, ?_, ?_⟩
    · show k ∈ bucketRead t.kbucket (kbucketIndex t.locusKey k)
      rw [bucketRead_eq_spec t hInv]
      refine List.mem_map.mpr ⟨p, List.mem_filter.mpr ⟨hp, ?_⟩, hpk⟩
      rw [hpk]
      exact beq_self_eq_true _
    · intro b' hb'
      have hb2 : k ∈ bucketRead t.kbucket b' := hb'
      rw [bucketRead_eq_spec t hInv] at hb2
      obtain ⟨p', hp', hpk'⟩ := List.mem_map.mp hb2
      have hidx := (List.mem_filter.mp hp').2
      rw [beq_iff_eq] at hidx
      rw [← hidx, hpk']
  · rintro ⟨b, hb, -⟩
    rw [bucketRead_eq_spec t hInv] at hb
    obtain ⟨p, hp, hpk⟩ := List.mem_map.mp hb
    exact List.mem_map.mpr ⟨p, (List.mem_filter.mp hp).1, hpk⟩

/-! ## The lookup loop: accepted candidates respect the frontier -/

theorem processResponsePeer_accepts_close (cfg : LookupConfig) (maxDistance : Bytes)
    (inactive : List Peer) (acc : List Peer × List Peer) (q p : Peer)
    (hp : p ∈ (processResponsePeer cfg maxDistance inactive acc q).2) :
    p ∈ acc.2
      ∨ (bytesCompare (XORBytes p.key cfg.searchKey) maxDistance ≤ 0
          ∧ p.key ≠ cfg.hostKey) := by
  obtain ⟨prev, newRes⟩ := acc
  unfold processResponsePeer at hp
  dsimp only at hp ⊢
  split at hp
  · exact Or.inl hp
  · split at hp
    · exact Or.inl hp
    · split at hp
      · exact Or.inl hp
      · split at hp
        · exact Or.inl hp
        · next hcond =>
          rcases List.mem_append.mp hp with h | h
          · exact Or.inl h
          · rw [List.mem_singleton] at h
            subst h
            rw [not_or] at hcond
            exact Or.inr ⟨by omega, hcond.2⟩

theorem foldl_responses_accepts_close (cfg : LookupConfig) (maxDistance : Bytes)
    (inactive : List Peer) (p : Peer) :
    ∀ (rs : List Peer) (acc : List Peer × List Peer),
      p ∈ (rs.foldl (processResponsePeer cfg maxDistance inactive) acc).2 →
      p ∈ acc.2
        ∨ (bytesCompare (XORBytes p.key cfg.searchKey) maxDistance ≤ 0
            ∧ p.key ≠ cfg.hostKey) := by
  intro rs
  induction rs with
  | nil => intro acc hp; exact Or.inl hp
  | cons q rs ih =>
    intro acc hp
    rw [List.foldl_cons] at hp
    rcases ih _ hp with h | h
    · exact processResponsePeer_accepts_close cfg maxDistance inactive acc q p h
    · exact Or.inr h

theorem foldl_nodes_accepts_close (cfg : LookupConfig) (maxDistance : Bytes)
    (inactive : List Peer) (p : Peer) :
    ∀ (nodes : List Peer) (acc : List Peer × List Peer),
      p ∈ (nodes.foldl (processLookupNode cfg maxDistance inactive) acc).2 →
      p ∈ acc.2
        ∨ (bytesCompare (XORBytes p.key cfg.searchKey) maxDistance ≤ 0
            ∧ p.key ≠ cfg.hostKey) := by
  intro nodes
  induction nodes with
  | nil => intro acc hp; exact Or.inl hp
  | cons q nodes ih =>
    intro acc hp
    rw [List.foldl_cons] at hp
    rcases ih _ hp with h | h
    · unfold processLookupNode at h
      split at h
      · exact Or.inl h
      · exact foldl_responses_accepts_close cfg maxDistance inactive p _ acc h
    · exact Or.inr h

theorem lookupStep_newRes_close (cfg : LookupConfig) (st : LookupState) (p : Peer)
    (hp : p ∈ (lookupStep cfg st).2) :
    bytesCompare (XORBytes p.key cfg.searchKey) (frontierDistance cfg st) ≤ 0
      ∧ p.key ≠ cfg.hostKey := by
  unfold lookupStep at hp
  dsimp only at hp
  split at hp
  · simp at hp
  · rcases foldl_nodes_accepts_close cfg (frontierDistance cfg st) st.inactive p
      (st.curr.take cfg.concurrentRequests) (sortedSeen cfg st, []) hp with h | h
    · simp at h
    · exact h

theorem finalizeLookup_sorted_and_bounded (cfg : LookupConfig) (prev : List Peer) :
    (finalizeLookup cfg prev).Pairwise (closerOrTied cfg.searchKey)
      ∧ (finalizeLookup cfg prev).length ≤ cfg.maxPeers := by
  unfold finalizeLookup
  dsimp only
  split
  · next hle =>
    constructor
    · exact ((SortPeersByClosest_sorted prev cfg.searchKey).sublist
        (List.take_sublist _ _))
    · rw [List.length_take]
      omega
  · next hle =>
    exact ⟨SortPeersByClosest_sorted prev cfg.searchKey, by omega⟩

theorem findClosestNodes_sorted_and_bounded (cfg : LookupConfig)
    (tablePeers : List Peer) (fuel : Nat) :
    (FindClosestNodes cfg tablePeers fuel).Pairwise (closerOrTied cfg.searchKey)
      ∧ (FindClosestNodes cfg tablePeers fuel).length ≤ cfg.maxPeers := by
  unfold FindClosestNodes
  dsimp only
  split
  · exact ⟨List.Pairwise.nil, by simp⟩
  · exact finalizeLookup_sorted_and_bounded cfg _

/-! ## `SendMessage`: the insertion point relative to the failure points -/

theorem sendMessage_no_update_before_verification (w : Wire) (t : RouteTable)
    (address : String) (now : Int) (k : Bytes) (ip : String) (p : Int)
    (hparse : ParseNodeAddress address = .ok (k, ip, p))
    (hfail : preVerifyFailure w k) :
    (SendMessage w t address now).2 = t := by
  unfold SendMessage
  rw [hparse]
  dsimp only
  split
  · rfl
  next hdial =>
    split
    · rfl
    next v hport =>
      split
      · rfl
      next hwrite =>
        split
        · rfl
        next body hread =>
          split
          · rfl
          next hlen2 =>
            split
            · rfl
            next k2 hrec2 =>
              split
              · rfl
              next hne2 =>
                exfalso
                rcases hfail with h | h | h | h | ⟨body2, hb2, hlen3⟩ | h | ⟨k3, hk3, hne3⟩
                · exact hdial (by rw [h]; rfl)
                · rw [h] at hport
                  exact Option.noConfusion hport
                · exact hwrite (by rw [h]; rfl)
                · rw [h] at hread
                  exact Option.noConfusion hread
                · rw [hread] at hb2
                  have hbb : body = body2 := by
                    injection hb2 with h5
                  rw [← hbb] at hlen3
                  exact hlen2 hlen3
                · rw [h] at hrec2
                  exact Option.noConfusion hrec2
                · rw [hrec2] at hk3
                  have hkk : k2 = k3 := by
                    injection hk3 with h5
                  rw [← hkk] at hne3
                  exact hne2 hne3

theorem sendMessage_panics_on_bad_address (w : Wire) (t : RouteTable)
    (address : String) (now : Int) (e : String)
    (h : ParseNodeAddress address = .error e) :
    SendMessage w t address now = (.panicked e, t) := by
  unfold SendMessage
  rw [h]

theorem parseNodeAddress_ok_shape (s : String) (k : Bytes) (ip : String) (p : Int)
    (h : ParseNodeAddress s = .ok (k, ip, p)) :
    k.length = PeerKeySize ∧ 0 ≤ p ∧ p < 2 ^ 63 := by
  unfold ParseNodeAddress at h
  dsimp only at h
  split at h
  · simp at h
  · split at h
    · simp at h
    · split at h
      · split at h
        · simp at h
        · split at h
          · simp at h
          · split at h
            · simp at h
            next hklen =>
              split at h
              · simp at h
              · split at h
                · simp at h
                next port2 hatoi =>
                  rw [Except.ok.injEq, Prod.mk.injEq] at h
                  obtain ⟨hk1, h2⟩ := h
                  rw [Prod.mk.injEq] at h2
                  obtain ⟨-, hp1⟩ := h2
                  subst hk1
                  subst hp1
                  refine ⟨not_not.mp hklen, ?_, ?_⟩
                  · unfold goAtoi at hatoi
                    dsimp only at hatoi
                    split at hatoi
                    · rw [Option.some.injEq] at hatoi
                      rw [← hatoi]
                      exact Int.ofNat_nonneg _
                    · simp at hatoi
                  · unfold goAtoi at hatoi
                    dsimp only at hatoi
                    split at hatoi
                    · next hv =>
                      rw [Option.some.injEq] at hatoi
                      rw [← hatoi]
                      exact_mod_cast hv
                    · simp at hatoi
      · simp at h

/-! ## Claim theorems -/

set_option maxRecDepth 10000 in
/-- C1 counterexample: in a concrete `FindClosestNodes` run, the frontier
distance of the second loop iteration is strictly greater than that of the
first — the seed reports a peer beyond the frontier, which is rejected by
condition (d) but appended to the seen set, pushing the next iteration's
frontier outward.  The frontier is therefore not monotonically
non-increasing. -/
theorem C1_frontier_can_increase :
    bytesCompare
      (frontierDistance cfgFrontier
        (lookupStep cfgFrontier (initLookupState cfgFrontier [peerSeed])).1)
      (frontierDistance cfgFrontier (initLookupState cfgFrontier [peerSeed])) = 1 := by
  decide

/-- C1 amended: every peer accepted into an iteration's batch of new
candidates lies within that iteration's frontier distance — XOR distance
compared at most equal — and is never the host itself; the frontier
itself is not monotone, because response peers rejected for distance or
for being the host are still appended to the seen set from which the next
frontier is computed. -/
theorem C1_new_candidates_within_frontier (cfg : LookupConfig) (st : LookupState)
    (p : Peer) (hp : p ∈ (lookupStep cfg st).2) :
    bytesCompare (XORBytes p.key cfg.searchKey) (frontierDistance cfg st) ≤ 0
      ∧ p.key ≠ cfg.hostKey :=
  lookupStep_newRes_close cfg st p hp

set_option maxRecDepth 10000 in
/-- C1 witness: the accepted candidate of the concrete first iteration. -/
theorem C1_witness :
    peerNear ∈ (lookupStep cfgFrontier (initLookupState cfgFrontier [peerSeed])).2
      ∧ (bytesCompare (XORBytes peerNear.key cfgFrontier.searchKey)
          (frontierDistance cfgFrontier (initLookupState cfgFrontier [peerSeed])) ≤ 0
        ∧ peerNear.key ≠ cfgFrontier.hostKey) :=
  ⟨by decide,
    C1_new_candidates_within_frontier cfgFrontier
      (initLookupState cfgFrontier [peerSeed]) peerNear (by decide)⟩

set_option maxRecDepth 10000 in
/-- C2 counterexample: a concrete `FindClosestNodes` run returns a list
containing the host's own locus key — the seed reports the host itself,
which is rejected by condition (e) but appended to the seen set from which
the final result is drawn (and it was never pinged during the lookup). -/
theorem C2_result_contains_host_key :
    cfgSelfReport.hostKey ∈ (FindClosestNodes cfgSelfReport [peerSeed] 5).map Peer.key := by
  decide

/-- C2 amended: the list returned by `FindClosestNodes` is sorted
closest-first by XOR distance to the target and has length at most
`max_peers`; it may however contain peers that were never successfully
pinged during the lookup and even the host's own locus key, because
response peers rejected for distance or for being the host are recorded in
the accumulated set from which the result is drawn. -/
theorem C2_result_sorted_and_bounded (cfg : LookupConfig) (tablePeers : List Peer)
    (fuel : Nat) :
    (FindClosestNodes cfg tablePeers fuel).Pairwise (closerOrTied cfg.searchKey)
      ∧ (FindClosestNodes cfg tablePeers fuel).length ≤ cfg.maxPeers :=
  findClosestNodes_sorted_and_bounded cfg tablePeers fuel

set_option maxRecDepth 10000 in
/-- C3 counterexample: with `max_peers = 2` and `latency_period = 0`,
after inserting keys `…01` and `…02` at second 100, inserting the third
distinct key `…03` at the same second returns false and leaves the table
unchanged: key `…03` lands in the nonempty bucket of `…02`, and the
replacement test `now - last_seen > latency_period` is strict. -/
theorem C3_same_second_third_insert_rejected :
    tableS3two.Insert (keyLast 3) "0.0.0.0" 3 100 = ((false, none), tableS3two) := by
  decide

set_option maxRecDepth 10000 in
/-- C3 amended: with `max_peers = 2` and `latency_period = 0`, a third
insertion succeeds in exactly two ways.  If the new key's bucket is empty
and the two stored peers share a bucket, the bloated bucket's tail is
evicted (keys `…02`, `…03` share bucket `2^1`; inserting `…01` evicts
`…03`).  Otherwise the peer placed last by the last-seen merge sort is
examined — the comparator orders ascending by `last_seen`, so this is the
most recently seen peer, not the oldest — and it is replaced when its
`last_seen` is strictly older than `now`: after `…01` at 100 and `…02` at
101, inserting `…03` at 103 evicts `…02`. -/
theorem C3_third_insert_eviction_behaviour :
    (tableS3bloat.Insert (keyLast 1) "0.0.0.0" 3 100).1 = (true, none)
      ∧ ((tableS3bloat.Insert (keyLast 1) "0.0.0.0" 3 100).2).peers.map Peer.key
          = [keyLast 2, keyLast 1]
      ∧ (tableS3times.Insert (keyLast 3) "0.0.0.0" 3 103).1 = (true, none)
      ∧ ((tableS3times.Insert (keyLast 3) "0.0.0.0" 3 103).2).peers.map Peer.key
          = [keyLast 1, keyLast 3] := by
  decide

set_option maxRecDepth 10000 in
/-- C4 counterexample: an exchange whose response decodes with
`success = false` is reported to the caller as a failure, yet the remote
peer has already been inserted into the routing table, because
`SendMessage` inserts before decoding the response body. -/
theorem C4_success_false_still_inserts :
    (SendMessage wireFailResp tableHost addrPeerOne 50).1 = .failed "boom"
      ∧ ((SendMessage wireFailResp tableHost addrPeerOne 50).2).peers.map Peer.key
          = [keyLast 1] := by
  decide

/-- C4 amended: the routing table is not updated for outbound failures up
to and including response-signature verification (dial, write, read, a
short response body, signature recovery failure, or a recovered key that
differs from the address); the `Insert` happens before the response body
is decoded, so a JSON-decode failure or a `success = false` response
leaves the peer inserted. -/
theorem C4_no_update_on_pre_verification_failure (w : Wire) (t : RouteTable)
    (address : String) (now : Int) (k : Bytes) (ip : String) (p : Int)
    (hparse : ParseNodeAddress address = .ok (k, ip, p))
    (hfail : preVerifyFailure w k) :
    (SendMessage w t address now).2 = t :=
  sendMessage_no_update_before_verification w t address now k ip p hparse hfail

/-- C4 witness: a concrete exchange whose response signature fails to
verify leaves the routing table untouched. -/
theorem C4_witness :
    (SendMessage wireBadSig tableHost addrPeerOne 50).2 = tableHost :=
  C4_no_update_on_pre_verification_failure wireBadSig tableHost addrPeerOne 50
    (keyLast 1) "1.2.3.4" 9 rfl
    (Or.inr (Or.inr (Or.inr (Or.inr (Or.inr (Or.inl rfl))))))

/-- C5: on any address that fails to parse, `SendMessage` panics with the
parse error (the source calls `panic(err)`) instead of returning the error
to the caller. -/
theorem C5_malformed_address_panics (w : Wire) (t : RouteTable) (address : String)
    (now : Int) (e : String) (h : ParseNodeAddress address = .error e) :
    SendMessage w t address now = (.panicked e, t) :=
  sendMessage_panics_on_bad_address w t address now e h

/-- C5 witness: the concrete malformed address panics. -/
theorem C5_witness :
    SendMessage wireFailResp tableHost addrBad 0
      = (.panicked "invalid node address", tableHost) :=
  C5_malformed_address_panics wireFailResp tableHost addrBad 0
    "invalid node address" rfl

/-- C6: after any sequence of `Insert` calls on a freshly constructed
route table, no two stored peer records share a key, and the side index is
consistent with the peers list: a key lies in some bucket — and then in
exactly one — precisely when it lies in the peers list. -/
theorem C6_key_uniqueness_and_index_consistency (locusKey : Bytes)
    (maxPeers latencyPeriod : Int) (t : RouteTable)
    (hnew : NewRouteTable locusKey maxPeers latencyPeriod = .ok t)
    (ops : List (Bytes × String × Int × Int)) :
    ((applyInserts t ops).peers.map Peer.key).Nodup
      ∧ ∀ k : Bytes, k ∈ (applyInserts t ops).peers.map Peer.key ↔
          ∃! b : Nat, k ∈ bucketRead (applyInserts t ops).kbucket b := by
  have ht : t = ⟨locusKey, maxPeers, latencyPeriod, [], []⟩ := by
    unfold NewRouteTable at hnew
    split at hnew
    · simp at hnew
    · rw [Except.ok.injEq] at hnew
      exact hnew.symm
  subst ht
  have hInv := applyInserts_inv ops _ (emptyTable_inv locusKey maxPeers latencyPeriod)
  exact ⟨hInv.nodupKeys, fun k => inv_key_iff_unique_bucket _ hInv k⟩

/-- C6 witness: the invariant instantiated on a table built from
`NewRouteTable` with one insertion. -/
theorem C6_witness :
    ((applyInserts tableS3 [(keyLast 1, "0.0.0.0", 1, 100)]).peers.map Peer.key).Nodup
      ∧ ∀ k : Bytes,
          k ∈ (applyInserts tableS3 [(keyLast 1, "0.0.0.0", 1, 100)]).peers.map Peer.key ↔
          ∃! b : Nat,
            k ∈ bucketRead (applyInserts tableS3 [(keyLast 1, "0.0.0.0", 1, 100)]).kbucket b :=
  C6_key_uniqueness_and_index_consistency locusZero 2 0 tableS3 rfl
    [(keyLast 1, "0.0.0.0", 1, 100)]

set_option maxRecDepth 10000 in
/-- C7 counterexample: `PeerStore.SortPeersByProximity` leaves a peer at
XOR distance `2^64` ahead of a peer at distance `0`, because its
comparator truncates the big-integer distance difference to an `int64`,
and `-(2^64)` truncates to `0`.  The second conjunct shows the adjacent
output pair is strictly out of XOR order. -/
theorem C7_store_proximity_misorders :
    storeSortPeersByProximity (keyLast 1) [peerPow64, peerZeroDist] locusZero
      = .ok [peerPow64, peerZeroDist]
    ∧ bytesCompare (XORBytes peerPow64.key locusZero)
        (XORBytes peerZeroDist.key locusZero) = 1 :=
  ⟨rfl, by decide⟩

/-- C7 amended: `SortPeersByClosest` (helpers.go, also behind
`RouteTable.SortPeersByProximity`) returns its input sorted ascending by
unsigned lexicographic comparison of the XOR distances, and equal-distance
peers keep their relative input order (for every distance class, filtering
the output equals filtering the input); `last_seen` plays no role, as the
sorted-plus-stable characterisation determines the output uniquely from
the keys.  `PeerStore.SortPeersByProximity`, by contrast, uses an
int64-truncated big-integer difference and can misorder keys whose
distances differ by a multiple of `2^64`. -/
theorem C7_closest_sort_sorted_and_stable (peers : List Peer) (k : Bytes) :
    (SortPeersByClosest peers k).Pairwise (closerOrTied k)
      ∧ ∀ d : Bytes,
          (SortPeersByClosest peers k).filter (fun p => XORBytes p.key k == d)
            = peers.filter (fun p => XORBytes p.key k == d) :=
  ⟨SortPeersByClosest_sorted peers k,
    fun d => SortPeersByClosest_filter_stable peers k d⟩

/-- C8 counterexample: a well-formed address whose decimal port is 70000
parses successfully — `ParseNodeAddress` performs no `[0, 65535]` port
range check, `strconv.Atoi` only rejects values that overflow an int64. -/
theorem C8_overlarge_port_accepted :
    ParseNodeAddress addrBigPort = .ok (keyLast 1, "1.2.3.4", 70000) := rfl

/-- C8 amended: `ParseNodeAddress` fails on a malformed scheme, odd-length
or invalid hex, a wrong key length, and an invalid IPv4 host — whenever it
succeeds the key has exactly 20 bytes and the port is a nonnegative value
below `2^63` — but a port outside `[0, 65535]` such as 70000 is accepted. -/
theorem C8_parse_success_shape (s : String) (k : Bytes) (ip : String) (p : Int)
    (h : ParseNodeAddress s = .ok (k, ip, p)) :
    k.length = PeerKeySize ∧ 0 ≤ p ∧ p < 2 ^ 63 :=
  parseNodeAddress_ok_shape s k ip p h

/-- C8 witness: the success shape at a concrete parsed address. -/
theorem C8_witness :
    (keyLast 1).length = PeerKeySize ∧ 0 ≤ (9 : Int) ∧ (9 : Int) < 2 ^ 63 :=
  C8_parse_success_shape addrPeerOne (keyLast 1) "1.2.3.4" 9 rfl

/-- C9: inserting the locus key returns false and leaves every component
of the table — peers list, side index, and all stored records — exactly as
it was. -/
theorem C9_insert_locus_rejected (t : RouteTable) (key : Bytes) (ip : String)
    (port now : Int) (h : key = t.locusKey) :
    t.Insert key ip port now = ((false, none), t) := by
  unfold RouteTable.Insert
  rw [if_pos (by rw [h]; exact beq_self_eq_true _)]

/-- C9 witness: the locus rejection on a concrete table. -/
theorem C9_witness :
    tableS3.Insert locusZero "9.9.9.9" 77 100 = ((false, none), tableS3) :=
  C9_insert_locus_rejected tableS3 locusZero "9.9.9.9" 77 100 rfl

/-- C10: inserting a key of the wrong length into a table with a 20-byte
locus key (when no stored record carries that key) returns
`(false, error)` and leaves the table unchanged — the wrong-length key is
never stored. -/
theorem C10_wrong_length_key_rejected (t : RouteTable) (key : Bytes) (ip : String)
    (port now : Int) (hloc : t.locusKey.length = PeerKeySize)
    (hk : key.length ≠ PeerKeySize) (hmem : ∀ p ∈ t.peers, p.key ≠ key) :
    t.Insert key ip port now = ((false, some "key length miss-match"), t) := by
  unfold RouteTable.Insert
  rw [if_neg (show ¬ (key == t.locusKey) = true by
    rw [beq_eq_false_iff_ne.mpr (fun hc => hk (by rw [hc]; exact hloc))]
    simp)]
  have hf : t.peers.findIdx? (fun p => p.key == key) = none :=
    List.findIdx?_eq_none_iff.mpr (fun x hx => by
      rw [beq_eq_false_iff_ne]
      exact hmem x hx)
  rw [hf]
  dsimp only
  have hc : t.calculateKBucketKey key = .error "key length miss-match" := by
    unfold RouteTable.calculateKBucketKey
    rw [if_pos (show key.length ≠ t.locusKey.length by
      rw [hloc]
      exact hk)]
  rw [hc]

/-- C10 witness: a two-byte key is rejected by a concrete table. -/
theorem C10_witness :
    tableS3.Insert [1, 2] "1.1.1.1" 5 100
      = ((false, some "key length miss-match"), tableS3) :=
  C10_wrong_length_key_rejected tableS3 [1, 2] "1.1.1.1" 5 100 rfl
    (by decide) (by simp [tableS3])
